import Mathlib

/-!
Verification of the SchrottID reversible identifier codec
(`src/cpp/schrott_id.hpp`): the Base64 codec used to serialize the
permutation parameter, and the digit-permutation cipher itself.

Modelling conventions:
* C++ `std::string` is modelled as `List Char`, `std::vector<byte>` as
  `List Nat` (each entry < 256 where the code guarantees it).
* `std::uint32_t` / `std::uint64_t` arithmetic is modelled on `Nat` with an
  explicit `% 2 ^ 32` / `% 2 ^ 64` at each operation that can wrap.
* Fallible functions (`throw std::invalid_argument` etc.) return
  `Except String _` carrying the thrown message.
-/

namespace SchrottId

namespace base64

/-- The standard Base64 alphabet (`kEncodeLookup` in the source). -/
def kEncodeLookup : List Char :=
  "ABCDEFGHIJKLMNOPQRSTUVWXYZabcdefghijklmnopqrstuvwxyz0123456789+/".toList

/-- The padding character (`kPadCharacter` in the source). -/
def kPadCharacter : Char := '='

/-- The four output characters produced for one full 3-byte input group
(the body of the main loop of `base64::encode`).  The `getD` default is
never reached: all four indices are < 64. -/
def encodeGroup3 (b0 b1 b2 : Nat) : List Char :=
  let temp := (b0 <<< 16) + (b1 <<< 8) + b2
  [kEncodeLookup.getD ((temp &&& 0x00FC0000) >>> 18) 'A',
   kEncodeLookup.getD ((temp &&& 0x0003F000) >>> 12) 'A',
   kEncodeLookup.getD ((temp &&& 0x00000FC0) >>> 6) 'A',
   kEncodeLookup.getD (temp &&& 0x0000003F) 'A']

/-- `base64::encode`: the main loop consumes the input three bytes at a
time; a leftover of 2 or 1 bytes is handled by the trailing `switch`
(cases 2 and 1 respectively), padding the output with `=` to a multiple
of four characters. -/
def encode : List Nat → List Char
  | b0 :: b1 :: b2 :: rest => encodeGroup3 b0 b1 b2 ++ encode rest
  | [b0, b1] =>
    let temp := (b0 <<< 16) + (b1 <<< 8)
    [kEncodeLookup.getD ((temp &&& 0x00FC0000) >>> 18) 'A',
     kEncodeLookup.getD ((temp &&& 0x0003F000) >>> 12) 'A',
     kEncodeLookup.getD ((temp &&& 0x00000FC0) >>> 6) 'A',
     kPadCharacter]
  | [b0] =>
    let temp := b0 <<< 16
    [kEncodeLookup.getD ((temp &&& 0x00FC0000) >>> 18) 'A',
     kEncodeLookup.getD ((temp &&& 0x0003F000) >>> 12) 'A',
     kPadCharacter, kPadCharacter]
  | [] => []

/-- The value of one non-padding Base64 character, following the if/else
chain of `base64::decode` (`A-Z`, `a-z`, `0-9`, `+`, `/`); `none` for any
other character (including the padding character). -/
def b64charVal (c : Char) : Option Nat :=
  if 0x41 ≤ c.toNat ∧ c.toNat ≤ 0x5A then some (c.toNat - 0x41)
  else if 0x61 ≤ c.toNat ∧ c.toNat ≤ 0x7A then some (c.toNat - 0x47)
  else if 0x30 ≤ c.toNat ∧ c.toNat ≤ 0x39 then some (c.toNat + 0x04)
  else if c.toNat = 0x2B then some 0x3E
  else if c.toNat = 0x2F then some 0x3F
  else none

/-- Outcome of processing one input character inside the decode loop:
continue with an updated 32-bit accumulator, return early (padding), or
throw. -/
inductive StepRes where
  | cont (temp : Nat)
  | ret (bytes : List Nat)
  | fail (msg : String)
deriving DecidableEq

/-- One iteration of the inner `for` loop of `base64::decode`: shift the
32-bit accumulator left by 6 bits, then either merge the character value,
or handle padding according to `input.end() - it` (here `dist`), or
throw on a foreign character. -/
def stepChar (temp : Nat) (c : Char) (dist : Nat) : StepRes :=
  let t := (temp <<< 6) % 2 ^ 32
  match b64charVal c with
  | some v => .cont (t ||| v)
  | none =>
    if c = kPadCharacter then
      match dist with
      | 1 => .ret [(t >>> 16) &&& 0x000000FF, (t >>> 8) &&& 0x000000FF]
      | 2 => .ret [(t >>> 10) &&& 0x000000FF]
      | _ => .fail "Invalid padding in Base64"
    else .fail "Invalid character in Base64"

/-- The `while (it < input.end())` loop of `base64::decode`, processing
four characters per iteration.  `dist` passed to `stepChar` is the
distance from the current character to the end of the input.  An early
`.ret` (padding in the last two positions) ends the output; after four
`.cont` steps three bytes are appended and the loop continues.  The
catch-all arm is unreachable because `decode` checks the length first. -/
def decodeCore (temp : Nat) : List Char → Except String (List Nat)
  | c0 :: c1 :: c2 :: c3 :: rest =>
    match stepChar temp c0 (rest.length + 4) with
    | .fail e => .error e
    | .ret bs => .ok bs
    | .cont t0 =>
      match stepChar t0 c1 (rest.length + 3) with
      | .fail e => .error e
      | .ret bs => .ok bs
      | .cont t1 =>
        match stepChar t1 c2 (rest.length + 2) with
        | .fail e => .error e
        | .ret bs => .ok bs
        | .cont t2 =>
          match stepChar t2 c3 (rest.length + 1) with
          | .fail e => .error e
          | .ret bs => .ok bs
          | .cont t3 =>
            match decodeCore t3 rest with
            | .error e => .error e
            | .ok bs =>
              .ok ([(t3 >>> 16) &&& 0x000000FF, (t3 >>> 8) &&& 0x000000FF,
                    t3 &&& 0x000000FF] ++ bs)
  | [] => .ok []
  | _ => .error "Invalid Base64 length"

/-- `base64::decode`: rejects inputs whose length is not a multiple of 4,
then runs the character loop.  (The `padding` counter in the source is
used only for `reserve` and has no observable effect.) -/
def decode (input : List Char) : Except String (List Nat) :=
  if input.length % 4 ≠ 0 then .error "Invalid Base64 length"
  else decodeCore 0 input


/-- Abbreviation for one `cont` step of the decode accumulator: shift left
by six bits modulo `2 ^ 32`, then merge a 6-bit value (used only to state
lemmas about `stepChar`). -/
def contStep (t v : Nat) : Nat := (t <<< 6) % 2 ^ 32 + v

/-- Whether an `Except` result is an error. -/
def isErr {e a : Type} : Except e a → Bool
  | .error _ => true
  | .ok _ => false

/-- Decidable equality for `Except` results (used to evaluate concrete
decode results). -/
instance {e a : Type} [DecidableEq e] [DecidableEq a] : DecidableEq (Except e a)
  | .error x, .error y =>
    if h : x = y then .isTrue (by rw [h]) else .isFalse (by simp [h])
  | .error _, .ok _ => .isFalse (by simp)
  | .ok _, .error _ => .isFalse (by simp)
  | .ok x, .ok y =>
    if h : x = y then .isTrue (by rw [h]) else .isFalse (by simp [h])

/-- Spec-side predicate (for the amended claim C6): scanning the input left
to right, `true` iff a character that is neither a Base64 alphabet
character nor an accepted padding character is reached before any `=` in
the final two positions (an `=` there ends the scan, accepting). -/
def scanBad : List Char → Bool
  | [] => false
  | c :: rest =>
    match b64charVal c with
    | some _ => scanBad rest
    | none => if c = kPadCharacter ∧ rest.length ≤ 1 then false else true

/-- Helper for `padDrop`, taking the reversed input. -/
def padDropRev : List Char → Nat
  | a :: b :: _ => if b = kPadCharacter then 2 else if a = kPadCharacter then 1 else 0
  | [a] => if a = kPadCharacter then 1 else 0
  | [] => 0

/-- Spec-side function (for the amended claim C7): the number of output
bytes dropped from the final 3-byte group — 2 if the second-to-last input
character is `=`, else 1 if the last is `=`, else 0. -/
def padDrop (l : List Char) : Nat := padDropRev l.reverse

end base64

namespace schrott_id

/-- The state of a constructed `schrott_id` instance: the validated
alphabet, the decoded permutation table and the minimum output length.
(The cached `inverse_alphabet_` / `inverse_permutation_` members are
recomputed on use here; they are pure functions of these fields.) -/
structure Cipher where
  alphabet : List Char
  permutation : List Nat
  min_length : Nat
deriving DecidableEq

/-- Fuel-based ceiling logarithm: `clogAux b fuel n` computes
`ceil(log_b n)` for `2 <= b` provided `n <= fuel` (structural recursion so
that the kernel can evaluate it). -/
def clogAux (b : Nat) : Nat → Nat → Nat
  | 0, _ => 0
  | fuel + 1, n => if 2 ≤ b ∧ 2 ≤ n then clogAux b fuel ((n + b - 1) / b) + 1 else 0

/-- `ceil(log_b n)` — the intended (exact) value of the expression
`ceil(log(n) / log(b))` in `convert_to_base`.  The source computes it in
IEEE `double` arithmetic, which deviates from the exact ceiling at some
inputs: at base 5, `n = 125`, `log(125.0)/log(5.0)` evaluates to
`3.0000000000000004`, so the program gets 4 where the exact value is 3;
at base 2, `n = 2^49 + 1`, the ratio evaluates to `49.0`, one less than
the exact 50.  Those deviations are the subject of the C1/C3/C10
code-bug findings; this definition captures the exact-arithmetic intent,
not the shipped `double` behavior. -/
def clogN (b n : Nat) : Nat := clogAux b n n

/-- The do/while loop of `convert_to_base`: emit `value % base`, continue
with `value / base` while positive.  Least-significant digit first; fuel
`v` always suffices. -/
def toDigitsAux (b : Nat) : Nat → Nat → List Nat
  | 0, v => [v % b]
  | fuel + 1, v => if 0 < v / b then v % b :: toDigitsAux b fuel (v / b) else [v % b]

/-- Least-significant-first base-`b` digits of `v` (at least one digit). -/
def toDigits (b v : Nat) : List Nat := toDigitsAux b v v

/-- `schrott_id::convert_to_base`, modelling the intended exact
arithmetic: a buffer of length `max(ceil(log_base(value+1)), min_length)`
filled from the back with the base-`alphabet.length` digits of `value`,
remaining entries zero.  Two deliberate infidelities to the shipped code,
both load-bearing for the C1/C3/C10 code-bug findings: `value + 1` is
computed on unbounded `Nat` where the source wraps `uint64_t` (at
`v = 2^64 - 1` the source takes `log(0)`), and the length uses the exact
ceiling `clogN` where the source's `double` arithmetic can under- or
over-estimate it.  When the source under-estimates (base 2, `v = 2^49`,
length 49 for a 50-digit value), its do/while decrements the `size_t`
index past zero and writes out of bounds — undefined behavior that a
total model cannot reproduce; here the buffer is always long enough. -/
def convert_to_base (c : Cipher) (v : Nat) : List Nat :=
  let base := c.alphabet.length
  let len := max (clogN base (v + 1)) c.min_length
  let ds := (toDigits base v).reverse
  List.replicate (len - ds.length) 0 ++ ds

/-- `schrott_id::convert_to_string`: map each digit to its alphabet
character (the source indexes unchecked; the `getD` default is never
reached for in-range digits). -/
def convert_to_string (c : Cipher) (buf : List Nat) : List Char :=
  buf.map (fun d => c.alphabet.getD d 'A')

/-- `schrott_id::convert_from_base`: map each character to its digit via
the inverse-alphabet lookup (built as `inverse_alphabet_[alphabet_[i]] = i`;
for a duplicate-free alphabet this is `indexOf`), throwing on a character
not in the alphabet. -/
def convert_from_base (c : Cipher) : List Char → Except String (List Nat)
  | [] => .ok []
  | ch :: rest =>
    if ch ∈ c.alphabet then
      match convert_from_base c rest with
      | .error e => .error e
      | .ok ds => .ok (c.alphabet.indexOf ch :: ds)
    else .error "Character not in alphabet"

/-- `schrott_id::convert_to_value`: left-to-right `value = value * base +
digit` on a wrapping unsigned 64-bit accumulator. -/
def convert_to_value (c : Cipher) (buf : List Nat) : Nat :=
  buf.foldl (fun value d => (value * c.alphabet.length + d) % 2 ^ 64) 0

/-- `schrott_id::rotate_left`: `std::rotate(begin, begin+1, end)` — the
first element moves to the end. -/
def rotate_left : List Nat → List Nat
  | [] => []
  | x :: xs => xs ++ [x]

/-- `schrott_id::rotate_right`: rotation by one on reversed iterators —
the last element moves to the front. -/
def rotate_right (l : List Nat) : List Nat :=
  match l.reverse with
  | [] => []
  | x :: rev_xs => x :: rev_xs.reverse

/-- `schrott_id::permute_forward`: `buf[i] = permutation_[buf[i]]`. -/
def permute_forward (perm : List Nat) (buf : List Nat) : List Nat :=
  buf.map (fun d => perm.getD d 0)

/-- The constructor loop `inverse_permutation_[permutation_[i]] = i`,
written as a fold over the index list. -/
def setInvLoop (perm : List Nat) : List Nat → List Nat → List Nat
  | inv, [] => inv
  | inv, i :: rest => setInvLoop perm (inv.set (perm.getD i 0) i) rest

/-- The cached `inverse_permutation_` table. -/
def inverse_permutation (perm : List Nat) : List Nat :=
  setInvLoop perm (List.replicate perm.length 0) (List.range perm.length)

/-- `schrott_id::permute_backward`: `buf[i] = inverse_permutation_[buf[i]]`. -/
def permute_backward (perm : List Nat) (buf : List Nat) : List Nat :=
  buf.map (fun d => (inverse_permutation perm).getD d 0)

/-- `schrott_id::cascade_forward`: running accumulator `last` starts at 0;
each digit becomes `(digit + last) % base` and the updated digit becomes
the new accumulator. -/
def cascade_forward (base : Nat) : Nat → List Nat → List Nat
  | _, [] => []
  | last, d :: rest =>
    let d2 := (d + last) % base
    d2 :: cascade_forward base d2 rest

/-- `schrott_id::cascade_backward`: each digit becomes
`(digit + base - last) % base`, and the accumulator is updated to the
pre-transform digit value. -/
def cascade_backward (base : Nat) : Nat → List Nat → List Nat
  | _, [] => []
  | last, d :: rest => (d + base - last) % base :: cascade_backward base d rest

/-- The body of the outer transform loop of `schrott_id::encode`:
rotate-left, permute-forward, rotate-left, cascade-forward, rotate-left. -/
def encodeRound (c : Cipher) (buf : List Nat) : List Nat :=
  rotate_left (cascade_forward c.alphabet.length 0
    (rotate_left (permute_forward c.permutation (rotate_left buf))))

/-- The body of the outer transform loop of `schrott_id::decode`:
rotate-right, cascade-backward, rotate-right, permute-backward,
rotate-right. -/
def decodeRound (c : Cipher) (buf : List Nat) : List Nat :=
  rotate_right (permute_backward c.permutation
    (rotate_right (cascade_backward c.alphabet.length 0 (rotate_right buf))))

/-- `schrott_id::encode`: convert to the digit buffer, run the round body
`buf.size() * 3` times, convert to a string. -/
def encode (c : Cipher) (v : Nat) : List Char :=
  let buf := convert_to_base c v
  convert_to_string c ((List.range (buf.length * 3)).foldl (fun b _ => encodeRound c b) buf)

/-- `schrott_id::decode`: convert from the string (may throw), run the
inverse round body `buf.size() * 3` times, convert to a value. -/
def decode (c : Cipher) (s : List Char) : Except String Nat :=
  match convert_from_base c s with
  | .error e => .error e
  | .ok buf =>
    .ok (convert_to_value c ((List.range (buf.length * 3)).foldl (fun b _ => decodeRound c b) buf))

/-- The validity conditions established by the `schrott_id` constructor:
alphabet of 2–256 unique characters, positive minimum length, and a
permutation table that is a bijection on `[0, alphabet.length)`. -/
def Valid (c : Cipher) : Prop :=
  2 ≤ c.alphabet.length ∧ c.alphabet.length ≤ 256 ∧ c.alphabet.Nodup ∧
  0 < c.min_length ∧ c.permutation.length = c.alphabet.length ∧
  c.permutation.Nodup ∧ ∀ x ∈ c.permutation, x < c.alphabet.length

/-- The validity conditions are decidable, so concrete instances can be
checked by evaluation. -/
instance (c : Cipher) : Decidable (Valid c) := by
  unfold Valid
  exact inferInstance

/-- The `schrott_id` constructor: the validation pipeline in source order.
`util::is_unique` (a set-insertion loop) is modelled by `List.Nodup`;
`*std::min_element` / `*std::max_element` on the non-empty decoded
permutation by `List.min?` / `List.max?`. -/
def mk (alphabet : List Char) (permutation : List Char) (min_length : Int) :
    Except String Cipher :=
  if alphabet.length ≤ 1 ∨ 256 < alphabet.length then
    .error "Alphabet must have 2 to 256 characters"
  else if ¬ alphabet.Nodup then
    .error "Alphabet must have unique characters"
  else if min_length ≤ 0 then
    .error "min_length must be greater than 0"
  else
    match base64.decode permutation with
    | .error e => .error e
    | .ok perm =>
      if perm.length ≠ alphabet.length then
        .error "Permutation length must be equal to alphabet length"
      else if ¬ perm.Nodup then
        .error "Invalid permutation. All positions must be unique."
      else if perm.min? ≠ some 0 ∨ perm.max? ≠ some (alphabet.length - 1) then
        .error "Invalid permutation. Invalid indices for used alphabet."
      else
        .ok ⟨alphabet, perm, min_length.toNat⟩

/-- `std::swap(l[i], l[j])`. -/
def swapL (l : List Nat) (i j : Nat) : List Nat :=
  let a := l.getD i 0
  let b := l.getD j 0
  (l.set i b).set j a

/-- The Fisher–Yates loop of `generate_permutation`: at position `i`, swap
with the next externally supplied random index. -/
def fisherYatesAux : List Nat → Nat → List Nat → List Nat
  | l, _, [] => l
  | l, i, r :: rs => fisherYatesAux (swapL l i r) (i + 1) rs

/-- `schrott_id::generate_permutation`, with the stream of values drawn
from `std::uniform_int_distribution(0, alphabet.size()-1)` over
`std::random_device` supplied as the list `randoms` (the loop draws one
index per position). -/
def generate_permutation (alphabet : List Char) (randoms : List Nat) :
    Except String (List Char) :=
  if alphabet.length ≤ 1 ∨ 256 < alphabet.length then
    .error "Alphabet must have 2 to 256 characters"
  else if ¬ alphabet.Nodup then
    .error "Alphabet must have unique characters"
  else
    .ok (base64.encode (fisherYatesAux (List.range alphabet.length) 0 randoms))

/-- Spec-side encode for claim C2, which reads the transform loop as
executing the five-operation round body `digit_count` times (instead of
the source's `buf.size() * 3` times). -/
def encodeSpecC2 (c : Cipher) (v : Nat) : List Char :=
  let buf := convert_to_base c v
  convert_to_string c ((List.range buf.length).foldl (fun b _ => encodeRound c b) buf)

end schrott_id



/-! ## Theorems -/

/-! ### Bit-manipulation bridge lemmas

The C++ source extracts 6-bit fields with mask-and-shift expressions such as
`(temp & 0x00FC0000) >> 18`.  These lemmas relate the `Nat` bitwise
operations used in the direct translation to plain division/remainder
arithmetic, so that `omega` can finish the arithmetic goals. -/

theorem and_mask_mul (t n k : Nat) :
    t &&& (2 ^ n - 1) * 2 ^ k = t / 2 ^ k % 2 ^ n * 2 ^ k := by
  apply Nat.eq_of_testBit_eq
  intro i
  rcases Nat.lt_or_ge i k with h | h
  · have h1 : Nat.testBit ((2 ^ n - 1) * 2 ^ k) i = false := by
      rw [Nat.mul_comm, Nat.testBit_mul_pow_two]
      simp [Nat.not_le_of_lt h]
    have h2 : Nat.testBit (t / 2 ^ k % 2 ^ n * 2 ^ k) i = false := by
      rw [Nat.mul_comm, Nat.testBit_mul_pow_two]
      simp [Nat.not_le_of_lt h]
    simp [Nat.testBit_and, h1, h2]
  · have h1 : Nat.testBit ((2 ^ n - 1) * 2 ^ k) i = decide (i - k < n) := by
      rw [Nat.mul_comm, Nat.testBit_mul_pow_two]
      simp [h]
    have h2 : Nat.testBit (t / 2 ^ k % 2 ^ n * 2 ^ k) i
        = (decide (i - k < n) && Nat.testBit t i) := by
      rw [Nat.mul_comm, Nat.testBit_mul_pow_two]
      have hdiv : t / 2 ^ k = t >>> k := (Nat.shiftRight_eq_div_pow t k).symm
      have hge : decide (i ≥ k) = true := by simp [h]
      rw [hge, Bool.true_and, Nat.testBit_mod_two_pow, hdiv,
        Nat.testBit_shiftRight, Nat.add_sub_cancel' h]
    rw [Nat.testBit_and, h1, h2, Bool.and_comm]

theorem extract_bits (t n k : Nat) :
    (t &&& (2 ^ n - 1) * 2 ^ k) >>> k = t / 2 ^ k % 2 ^ n := by
  rw [and_mask_mul, Nat.shiftRight_eq_div_pow,
    Nat.mul_div_cancel _ (Nat.two_pow_pos k)]

theorem extract18 (t : Nat) : (t &&& 0x00FC0000) >>> 18 = t / 2 ^ 18 % 64 := by
  have h : (0x00FC0000 : Nat) = (2 ^ 6 - 1) * 2 ^ 18 := by norm_num
  rw [h, extract_bits]
  norm_num

theorem extract12 (t : Nat) : (t &&& 0x0003F000) >>> 12 = t / 2 ^ 12 % 64 := by
  have h : (0x0003F000 : Nat) = (2 ^ 6 - 1) * 2 ^ 12 := by norm_num
  rw [h, extract_bits]
  norm_num

theorem extract6 (t : Nat) : (t &&& 0x00000FC0) >>> 6 = t / 2 ^ 6 % 64 := by
  have h : (0x00000FC0 : Nat) = (2 ^ 6 - 1) * 2 ^ 6 := by norm_num
  rw [h, extract_bits]
  norm_num

theorem extract0 (t : Nat) : t &&& 0x0000003F = t % 64 := by
  have h := Nat.and_pow_two_sub_one_eq_mod t 6
  norm_num at h
  exact h

theorem and255 (t : Nat) : t &&& 0x000000FF = t % 256 := by
  have h := Nat.and_pow_two_sub_one_eq_mod t 8
  norm_num at h
  exact h

/-- Bitwise OR acts as addition when the left operand has zero low bits. -/
theorem lor_eq_add_small {a v : Nat} (n : Nat) (ha : a % 2 ^ n = 0)
    (hv : v < 2 ^ n) : a ||| v = a + v := by
  have hd : 2 ^ n ∣ a := Nat.dvd_of_mod_eq_zero ha
  have hsplit : 2 ^ n * (a / 2 ^ n) = a := Nat.mul_div_cancel' hd
  calc a ||| v = 2 ^ n * (a / 2 ^ n) ||| v := by rw [hsplit]
    _ = 2 ^ n * (a / 2 ^ n) + v := (Nat.mul_add_lt_is_or hv _).symm
    _ = a + v := by rw [hsplit]

namespace base64

theorem b64charVal_lt {c : Char} {v : Nat} (h : b64charVal c = some v) : v < 64 := by
  unfold b64charVal at h
  split_ifs at h with h1 h2 h3 h4 h5
  all_goals injection h with h
  all_goals omega

theorem b64charVal_pad : b64charVal kPadCharacter = none := by decide

theorem b64charVal_ne_pad {c : Char} {v : Nat} (h : b64charVal c = some v) :
    c ≠ kPadCharacter := by
  intro hc
  rw [hc, b64charVal_pad] at h
  exact Option.noConfusion h

theorem lookup_val : ∀ v : Nat, v < 64 → b64charVal (kEncodeLookup.getD v 'A') = some v := by
  decide

theorem stepChar_plain {c : Char} {v : Nat} (h : b64charVal c = some v)
    (temp dist : Nat) : stepChar temp c dist = .cont (contStep temp v) := by
  have hv : v < 64 := b64charVal_lt h
  simp only [stepChar, h, contStep]
  congr 1
  apply lor_eq_add_small 6
  · rw [Nat.shiftLeft_eq, Nat.mod_mod_of_dvd _ (by norm_num : (2:Nat) ^ 6 ∣ 2 ^ 32)]
    exact Nat.mul_mod_left temp (2 ^ 6)
  · exact hv

theorem stepChar_bad {c : Char} (h : b64charVal c = none) (hc : c ≠ kPadCharacter)
    (temp dist : Nat) : stepChar temp c dist = .fail "Invalid character in Base64" := by
  simp only [stepChar, h, if_neg hc]

theorem stepChar_pad_far {temp dist : Nat} (hd : 3 ≤ dist) :
    stepChar temp kPadCharacter dist = .fail "Invalid padding in Base64" := by
  obtain ⟨e, rfl⟩ : ∃ e, dist = e + 3 := ⟨dist - 3, by omega⟩
  simp only [stepChar, b64charVal_pad]
  rw [if_pos trivial]

theorem stepChar_pad1 (temp : Nat) :
    stepChar temp kPadCharacter 1 =
      .ret [((temp <<< 6) % 2 ^ 32) >>> 16 &&& 0x000000FF,
            ((temp <<< 6) % 2 ^ 32) >>> 8 &&& 0x000000FF] := by
  simp only [stepChar, b64charVal_pad]
  rw [if_pos trivial]

theorem stepChar_pad2 (temp : Nat) :
    stepChar temp kPadCharacter 2 =
      .ret [((temp <<< 6) % 2 ^ 32) >>> 10 &&& 0x000000FF] := by
  simp only [stepChar, b64charVal_pad]
  rw [if_pos trivial]

end base64


namespace base64

theorem cont4_mod24 (temp v0 v1 v2 v3 : Nat) (h0 : v0 < 64) (h1 : v1 < 64)
    (h2 : v2 < 64) (h3 : v3 < 64) :
    contStep (contStep (contStep (contStep temp v0) v1) v2) v3 % 2 ^ 24
      = v0 * 2 ^ 18 + v1 * 2 ^ 12 + v2 * 2 ^ 6 + v3 := by
  simp only [contStep, Nat.shiftLeft_eq]
  omega

theorem cont3_shift_mod24 (temp v0 v1 v2 : Nat) (h0 : v0 < 64) (h1 : v1 < 64)
    (h2 : v2 < 64) :
    ((contStep (contStep (contStep temp v0) v1) v2 <<< 6) % 2 ^ 32) % 2 ^ 24
      = v0 * 2 ^ 18 + v1 * 2 ^ 12 + v2 * 2 ^ 6 := by
  simp only [contStep, Nat.shiftLeft_eq]
  omega

theorem cont2_shift_mod18 (temp v0 v1 : Nat) (h0 : v0 < 64) (h1 : v1 < 64) :
    ((contStep (contStep temp v0) v1 <<< 6) % 2 ^ 32) % 2 ^ 18
      = v0 * 2 ^ 12 + v1 * 2 ^ 6 := by
  simp only [contStep, Nat.shiftLeft_eq]
  omega

theorem decodeCore_cons4 {c0 c1 c2 c3 : Char} {v0 v1 v2 v3 : Nat}
    (h0 : b64charVal c0 = some v0) (h1 : b64charVal c1 = some v1)
    (h2 : b64charVal c2 = some v2) (h3 : b64charVal c3 = some v3)
    (temp : Nat) (rest : List Char) :
    decodeCore temp (c0 :: c1 :: c2 :: c3 :: rest) =
      match decodeCore (contStep (contStep (contStep (contStep temp v0) v1) v2) v3) rest with
      | .error e => .error e
      | .ok bs =>
        .ok ((contStep (contStep (contStep (contStep temp v0) v1) v2) v3 >>> 16 &&& 0x000000FF)
          :: (contStep (contStep (contStep (contStep temp v0) v1) v2) v3 >>> 8 &&& 0x000000FF)
          :: (contStep (contStep (contStep (contStep temp v0) v1) v2) v3 &&& 0x000000FF) :: bs) := by
  simp only [decodeCore, stepChar_plain h0, stepChar_plain h1, stepChar_plain h2,
    stepChar_plain h3, List.cons_append, List.nil_append]

theorem decodeCore_pad1 {c0 c1 c2 : Char} {v0 v1 v2 : Nat}
    (h0 : b64charVal c0 = some v0) (h1 : b64charVal c1 = some v1)
    (h2 : b64charVal c2 = some v2) (temp : Nat) :
    decodeCore temp [c0, c1, c2, kPadCharacter] =
      .ok [((contStep (contStep (contStep temp v0) v1) v2 <<< 6) % 2 ^ 32) >>> 16 &&& 0x000000FF,
           ((contStep (contStep (contStep temp v0) v1) v2 <<< 6) % 2 ^ 32) >>> 8 &&& 0x000000FF] := by
  simp only [decodeCore, List.length_nil, Nat.zero_add, stepChar_plain h0,
    stepChar_plain h1, stepChar_plain h2, stepChar_pad1]

theorem decodeCore_pad2 {c0 c1 : Char} {v0 v1 : Nat}
    (h0 : b64charVal c0 = some v0) (h1 : b64charVal c1 = some v1)
    (c3 : Char) (temp : Nat) :
    decodeCore temp [c0, c1, kPadCharacter, c3] =
      .ok [((contStep (contStep temp v0) v1 <<< 6) % 2 ^ 32) >>> 10 &&& 0x000000FF] := by
  simp only [decodeCore, List.length_nil, Nat.zero_add, stepChar_plain h0,
    stepChar_plain h1, stepChar_pad2]

theorem encode_length_mod4 (l : List Nat) : (encode l).length % 4 = 0 := by
  induction l using encode.induct with
  | case1 b0 b1 b2 rest ih =>
    simp only [encode, encodeGroup3, List.length_append, List.length_cons,
      List.length_nil]
    omega
  | case2 b0 b1 => simp [encode]
  | case3 b0 => simp [encode]
  | case4 => rfl

theorem decodeCore_encode (l : List Nat) (hb : ∀ b ∈ l, b < 256) (temp : Nat) :
    decodeCore temp (encode l) = .ok l := by
  induction l using encode.induct generalizing temp with
  | case1 b0 b1 b2 rest ih =>
    have hb0 : b0 < 256 := hb _ (by simp)
    have hb1 : b1 < 256 := hb _ (by simp)
    have hb2 : b2 < 256 := hb _ (by simp)
    have e18 : (b0 * 2 ^ 16 + b1 * 2 ^ 8 + b2) / 2 ^ 18 % 64 < 64 :=
      Nat.mod_lt _ (by norm_num)
    have e12 : (b0 * 2 ^ 16 + b1 * 2 ^ 8 + b2) / 2 ^ 12 % 64 < 64 :=
      Nat.mod_lt _ (by norm_num)
    have e6 : (b0 * 2 ^ 16 + b1 * 2 ^ 8 + b2) / 2 ^ 6 % 64 < 64 :=
      Nat.mod_lt _ (by norm_num)
    have e0 : (b0 * 2 ^ 16 + b1 * 2 ^ 8 + b2) % 64 < 64 := Nat.mod_lt _ (by norm_num)
    simp only [encode, encodeGroup3, List.cons_append, List.nil_append,
      Nat.shiftLeft_eq, extract18, extract12, extract6, extract0]
    rw [decodeCore_cons4 (lookup_val _ e18) (lookup_val _ e12) (lookup_val _ e6)
      (lookup_val _ e0)]
    rw [ih (fun b hbm => hb b (by simp [hbm]))]
    have h24 := cont4_mod24 temp _ _ _ _ e18 e12 e6 e0
    simp only [and255, Nat.shiftRight_eq_div_pow]
    simp only [Except.ok.injEq, List.cons.injEq]
    refine ⟨?_, ?_, ?_, trivial⟩ <;> omega
  | case2 b0 b1 =>
    have hb0 : b0 < 256 := hb _ (by simp)
    have hb1 : b1 < 256 := hb _ (by simp)
    have e18 : (b0 * 2 ^ 16 + b1 * 2 ^ 8) / 2 ^ 18 % 64 < 64 := Nat.mod_lt _ (by norm_num)
    have e12 : (b0 * 2 ^ 16 + b1 * 2 ^ 8) / 2 ^ 12 % 64 < 64 := Nat.mod_lt _ (by norm_num)
    have e6 : (b0 * 2 ^ 16 + b1 * 2 ^ 8) / 2 ^ 6 % 64 < 64 := Nat.mod_lt _ (by norm_num)
    simp only [encode, Nat.shiftLeft_eq, extract18, extract12, extract6]
    rw [decodeCore_pad1 (lookup_val _ e18) (lookup_val _ e12) (lookup_val _ e6)]
    have h24 := cont3_shift_mod24 temp _ _ _ e18 e12 e6
    simp only [and255, Nat.shiftRight_eq_div_pow]
    simp only [Except.ok.injEq, List.cons.injEq]
    refine ⟨?_, ?_, trivial⟩ <;> omega
  | case3 b0 =>
    have hb0 : b0 < 256 := hb _ (by simp)
    have e18 : b0 * 2 ^ 16 / 2 ^ 18 % 64 < 64 := Nat.mod_lt _ (by norm_num)
    have e12 : b0 * 2 ^ 16 / 2 ^ 12 % 64 < 64 := Nat.mod_lt _ (by norm_num)
    simp only [encode, Nat.shiftLeft_eq, extract18, extract12]
    rw [decodeCore_pad2 (lookup_val _ e18) (lookup_val _ e12)]
    have h18 := cont2_shift_mod18 temp _ _ e18 e12
    simp only [and255, Nat.shiftRight_eq_div_pow]
    simp only [Except.ok.injEq, List.cons.injEq]
    refine ⟨?_, trivial⟩
    omega
  | case4 => rfl

end base64


namespace base64

theorem padDrop_le (l : List Char) : padDrop l ≤ 2 := by
  unfold padDrop
  rcases l.reverse with _ | ⟨a, _ | ⟨b, t⟩⟩ <;> simp only [padDropRev] <;>
    first
    | omega
    | (split_ifs <;> omega)

theorem padDrop_cons4 {rest : List Char} (h : 2 ≤ rest.length) (c0 c1 c2 c3 : Char) :
    padDrop (c0 :: c1 :: c2 :: c3 :: rest) = padDrop rest := by
  unfold padDrop
  have hrev : (c0 :: c1 :: c2 :: c3 :: rest).reverse
      = rest.reverse ++ [c3, c2, c1, c0] := by simp
  rw [hrev]
  have h2 : 2 ≤ rest.reverse.length := by simpa using h
  rcases hr : rest.reverse with _ | ⟨a, _ | ⟨b, t⟩⟩
  · rw [hr] at h2; simp at h2
  · rw [hr] at h2; simp at h2
  · simp only [List.cons_append, padDropRev]

theorem decodeCore_spec (n : Nat) : ∀ l : List Char, l.length = n → l.length % 4 = 0 →
    ∀ temp, isErr (decodeCore temp l) = scanBad l ∧
      ∀ bs, decodeCore temp l = .ok bs → bs.length = l.length / 4 * 3 - padDrop l := by
  induction n using Nat.strong_induction_on with
  | _ n ih =>
    intro l hn hmod temp
    match l with
    | [] =>
      refine ⟨rfl, ?_⟩
      intro bs hbs
      cases hbs
      rfl
    | [c0] => simp at hmod
    | [c0, c1] => simp at hmod
    | [c0, c1, c2] => simp at hmod
    | c0 :: c1 :: c2 :: c3 :: rest =>
      have hrl : rest.length % 4 = 0 := by
        simp only [List.length_cons] at hmod
        omega
      rcases h0 : b64charVal c0 with _ | v0
      · by_cases hp0 : c0 = kPadCharacter
        · subst hp0
          simp only [decodeCore, stepChar_pad_far (show 3 ≤ rest.length + 4 by omega)]
          refine ⟨?_, fun bs hbs => absurd hbs (by simp)⟩
          simp only [scanBad, b64charVal_pad, isErr]
          rw [if_neg (by simp only [List.length_cons]; omega)]
        · simp only [decodeCore, stepChar_bad h0 hp0]
          refine ⟨?_, fun bs hbs => absurd hbs (by simp)⟩
          simp only [scanBad, h0, isErr]
          rw [if_neg (by tauto)]
      · simp only [decodeCore, stepChar_plain h0]
        rcases h1 : b64charVal c1 with _ | v1
        · by_cases hp1 : c1 = kPadCharacter
          · subst hp1
            simp only [stepChar_pad_far (show 3 ≤ rest.length + 3 by omega)]
            refine ⟨?_, fun bs hbs => absurd hbs (by simp)⟩
            simp only [scanBad, h0, b64charVal_pad, isErr]
            rw [if_neg (by simp only [List.length_cons]; omega)]
          · simp only [stepChar_bad h1 hp1]
            refine ⟨?_, fun bs hbs => absurd hbs (by simp)⟩
            simp only [scanBad, h0, h1, isErr]
            rw [if_neg (by tauto)]
        · simp only [stepChar_plain h1]
          rcases h2 : b64charVal c2 with _ | v2
          · by_cases hp2 : c2 = kPadCharacter
            · subst hp2
              rcases Nat.eq_zero_or_pos rest.length with hz | hpos
              · obtain rfl : rest = [] := List.length_eq_zero.mp hz
                simp only [List.length_nil, Nat.zero_add, stepChar_pad2]
                constructor
                · simp only [scanBad, h0, h1, b64charVal_pad, isErr]
                  rw [if_pos (by simp)]
                · intro bs hbs
                  injection hbs with hbs
                  subst hbs
                  simp [padDrop, padDropRev]
              · have h4 : 4 ≤ rest.length := by omega
                simp only [stepChar_pad_far (show 3 ≤ rest.length + 2 by omega)]
                refine ⟨?_, fun bs hbs => absurd hbs (by simp)⟩
                simp only [scanBad, h0, h1, b64charVal_pad, isErr]
                rw [if_neg (by simp only [List.length_cons]; omega)]
            · simp only [stepChar_bad h2 hp2]
              refine ⟨?_, fun bs hbs => absurd hbs (by simp)⟩
              simp only [scanBad, h0, h1, h2, isErr]
              rw [if_neg (by tauto)]
          · simp only [stepChar_plain h2]
            rcases h3 : b64charVal c3 with _ | v3
            · by_cases hp3 : c3 = kPadCharacter
              · subst hp3
                rcases Nat.eq_zero_or_pos rest.length with hz | hpos
                · obtain rfl : rest = [] := List.length_eq_zero.mp hz
                  simp only [List.length_nil, Nat.zero_add, stepChar_pad1]
                  constructor
                  · simp only [scanBad, h0, h1, h2, b64charVal_pad, isErr]
                    rw [if_pos (by simp)]
                  · intro bs hbs
                    injection hbs with hbs
                    subst hbs
                    have hc2 : c2 ≠ kPadCharacter := b64charVal_ne_pad h2
                    simp [padDrop, padDropRev, hc2]
                · have h4 : 4 ≤ rest.length := by omega
                  simp only [stepChar_pad_far (show 3 ≤ rest.length + 1 by omega)]
                  refine ⟨?_, fun bs hbs => absurd hbs (by simp)⟩
                  simp only [scanBad, h0, h1, h2, b64charVal_pad, isErr]
                  rw [if_neg (by omega)]
              · simp only [stepChar_bad h3 hp3]
                refine ⟨?_, fun bs hbs => absurd hbs (by simp)⟩
                simp only [scanBad, h0, h1, h2, h3, isErr]
                rw [if_neg (by tauto)]
            · simp only [stepChar_plain h3]
              have hrec := ih rest.length (by simp only [List.length_cons] at hn; omega)
                rest rfl hrl
                (contStep (contStep (contStep (contStep temp v0) v1) v2) v3)
              rcases hdc : decodeCore
                  (contStep (contStep (contStep (contStep temp v0) v1) v2) v3) rest
                with e | bsr
              · rw [hdc] at hrec
                constructor
                · simp only [scanBad, h0, h1, h2, h3]
                  rw [← hrec.1]
                · intro bs hbs
                  exact absurd hbs (by simp)
              · rw [hdc] at hrec
                constructor
                · simp only [scanBad, h0, h1, h2, h3]
                  rw [← hrec.1]
                  rfl
                · intro bs hbs
                  injection hbs with hbs
                  subst hbs
                  have hlen := hrec.2 bsr rfl
                  rcases Nat.eq_zero_or_pos rest.length with hz | hpos
                  · obtain rfl : rest = [] := List.length_eq_zero.mp hz
                    have hbsr : bsr = [] := by
                      have : decodeCore (contStep (contStep (contStep (contStep temp v0) v1) v2) v3)
                          ([] : List Char) = .ok [] := rfl
                      rw [this] at hdc
                      injection hdc with hdc
                      exact hdc.symm
                    subst hbsr
                    have hc2 : c2 ≠ kPadCharacter := b64charVal_ne_pad h2
                    have hc3 : c3 ≠ kPadCharacter := b64charVal_ne_pad h3
                    simp [padDrop, padDropRev, hc2, hc3]
                  · have h4 : 4 ≤ rest.length := by omega
                    have hpd := padDrop_le rest
                    rw [padDrop_cons4 (by omega)]
                    simp only [List.length_append, List.length_cons, List.length_nil]
                    omega

end base64


/-! ## Claim theorems for the Base64 codec -/

/-- The Base64 round-trip, as a reusable lemma. -/
theorem base64_decode_encode (l : List Nat) (h : ∀ b ∈ l, b < 256) :
    base64.decode (base64.encode l) = .ok l := by
  unfold base64.decode
  rw [if_neg (by simp [base64.encode_length_mod4])]
  exact base64.decodeCore_encode l h 0

/-- C5: for every byte sequence (all entries < 256; in particular all
lengths 0–300), `base64::decode (base64::encode bytes)` returns exactly
`bytes`. -/
theorem C5_base64_roundtrip (l : List Nat) (h : ∀ b ∈ l, b < 256) :
    base64.decode (base64.encode l) = .ok l :=
  base64_decode_encode l h

/-- Witness for C5 at the concrete byte sequence `[0, 1, 77, 255, 100]`. -/
theorem C5_base64_roundtrip_witness :
    (∀ b ∈ [0, 1, 77, 255, 100], b < 256) ∧
      base64.decode (base64.encode [0, 1, 77, 255, 100]) = .ok [0, 1, 77, 255, 100] :=
  ⟨by decide, C5_base64_roundtrip [0, 1, 77, 255, 100] (by decide)⟩

/-- C6 as stated is false: `"AB=$"` contains `$`, a character outside the
Base64 alphabet (and not the padding character), yet `base64::decode`
accepts it — the early return at the `=` two positions from the end never
examines the final character. -/
theorem C6_counterexample :
    base64.decode ['A', 'B', '=', '$'] = .ok [0] ∧
      ['A', 'B', '=', '$'].length % 4 = 0 ∧
      '$' ∈ ['A', 'B', '=', '$'] ∧ base64.b64charVal '$' = none ∧
      '$' ≠ base64.kPadCharacter := by
  decide

/-- C6 (amended): `base64::decode` fails exactly when the input length is
not a multiple of 4 or, scanning left to right, a character that is
neither a Base64 alphabet character nor an `=` in the final two positions
is reached before any such `=` (which returns early, leaving the
remaining character unexamined). -/
theorem C6_decode_error_iff (l : List Char) :
    base64.isErr (base64.decode l) = true ↔
      (l.length % 4 ≠ 0 ∨ base64.scanBad l = true) := by
  unfold base64.decode
  by_cases h : l.length % 4 = 0
  · rw [if_neg (by omega)]
    rw [(base64.decodeCore_spec l.length l rfl h 0).1]
    simp [h]
  · rw [if_pos h]
    simp [base64.isErr, h]

/-- C7 as stated is false: `"AB=C"` is accepted and decodes to one byte,
but the claimed formula `(length/4)*3 - padding_count` with
`padding_count` the number of `=` characters in the input gives 2. -/
theorem C7_counterexample :
    base64.decode ['A', 'B', '=', 'C'] = .ok [0] ∧
      ['A', 'B', '=', 'C'].count '=' = 1 ∧
      [0].length ≠ ['A', 'B', '=', 'C'].length / 4 * 3
        - ['A', 'B', '=', 'C'].count '=' := by
  decide

/-- C7 (amended): for every accepted input, the number of output bytes is
`(length/4)*3 - p`, where `p` is 2 if the second-to-last character is `=`,
else 1 if the last character is `=`, else 0 (`padDrop`). -/
theorem C7_decode_length (l : List Char) (bs : List Nat)
    (h : base64.decode l = .ok bs) :
    bs.length = l.length / 4 * 3 - base64.padDrop l := by
  unfold base64.decode at h
  by_cases hm : l.length % 4 = 0
  · rw [if_neg (by omega)] at h
    exact (base64.decodeCore_spec l.length l rfl hm 0).2 bs h
  · rw [if_pos hm] at h
    exact absurd h (by simp)

/-- Witness for C7 (amended) at the concrete input `"TQ=="`. -/
theorem C7_decode_length_witness :
    base64.decode ['T', 'Q', '=', '='] = .ok [77] ∧
      [77].length = ['T', 'Q', '=', '='].length / 4 * 3
        - base64.padDrop ['T', 'Q', '=', '='] :=
  ⟨by decide, C7_decode_length ['T', 'Q', '=', '='] [77] (by decide)⟩


namespace schrott_id

/-! ### Rotation lemmas -/

theorem rotate_right_rotate_left (l : List Nat) : rotate_right (rotate_left l) = l := by
  cases l with
  | nil => rfl
  | cons x xs =>
    simp [rotate_left, rotate_right, List.reverse_append]

theorem length_rotate_left (l : List Nat) : (rotate_left l).length = l.length := by
  cases l <;> simp [rotate_left]

theorem length_rotate_right (l : List Nat) : (rotate_right l).length = l.length := by
  unfold rotate_right
  rcases hr : l.reverse with _ | ⟨x, xs⟩
  · rw [List.reverse_eq_nil_iff] at hr
    simp [hr]
  · have := congrArg List.length hr
    simp at this
    simp
    omega

theorem mem_rotate_left {l : List Nat} {x : Nat} (h : x ∈ rotate_left l) : x ∈ l := by
  cases l with
  | nil => simp [rotate_left] at h
  | cons y ys =>
    simp only [rotate_left, List.mem_append, List.mem_cons] at h
    simp only [List.mem_cons]
    tauto

theorem mem_rotate_right {l : List Nat} {x : Nat} (h : x ∈ rotate_right l) : x ∈ l := by
  unfold rotate_right at h
  rcases hr : l.reverse with _ | ⟨y, ys⟩
  · rw [hr] at h
    simp at h
  · rw [hr] at h
    have hmem : x ∈ y :: ys := by
      simp only [List.mem_cons] at h ⊢
      rcases h with h | h
      · exact Or.inl h
      · exact Or.inr (by simpa using h)
    have : x ∈ l.reverse := hr ▸ hmem
    simpa using this

/-! ### Cascade lemmas -/

theorem length_cascade_forward (base : Nat) :
    ∀ (last : Nat) (l : List Nat), (cascade_forward base last l).length = l.length := by
  intro last l
  induction l generalizing last with
  | nil => rfl
  | cons d rest ih => simp [cascade_forward, ih]

theorem length_cascade_backward (base : Nat) :
    ∀ (last : Nat) (l : List Nat), (cascade_backward base last l).length = l.length := by
  intro last l
  induction l generalizing last with
  | nil => rfl
  | cons d rest ih => simp [cascade_backward, ih]

theorem mem_cascade_forward_lt {base : Nat} (hb : 0 < base) :
    ∀ (last : Nat) (l : List Nat) (x : Nat), x ∈ cascade_forward base last l → x < base := by
  intro last l
  induction l generalizing last with
  | nil => intro x hx; simp [cascade_forward] at hx
  | cons d rest ih =>
    intro x hx
    simp only [cascade_forward, List.mem_cons] at hx
    rcases hx with hx | hx
    · rw [hx]; exact Nat.mod_lt _ hb
    · exact ih _ x hx

theorem mem_cascade_backward_lt {base : Nat} (hb : 0 < base) :
    ∀ (last : Nat) (l : List Nat) (x : Nat), x ∈ cascade_backward base last l → x < base := by
  intro last l
  induction l generalizing last with
  | nil => intro x hx; simp [cascade_backward] at hx
  | cons d rest ih =>
    intro x hx
    simp only [cascade_backward, List.mem_cons] at hx
    rcases hx with hx | hx
    · rw [hx]; exact Nat.mod_lt _ hb
    · exact ih _ x hx

theorem cascade_backward_forward {base : Nat} :
    ∀ (l : List Nat) (last : Nat), last < base → (∀ d ∈ l, d < base) →
      cascade_backward base last (cascade_forward base last l) = l := by
  intro l
  induction l with
  | nil => intro last _ _; rfl
  | cons d rest ih =>
    intro last hlast hl
    have hd : d < base := hl d (by simp)
    simp only [cascade_forward, cascade_backward]
    congr 1
    · have h1 : (d + last) % base + base - last = (d + last) % base + (base - last) := by
        omega
      rw [h1, Nat.mod_add_mod]
      have h2 : d + last + (base - last) = d + base := by omega
      rw [h2, Nat.add_mod_right]
      exact Nat.mod_eq_of_lt hd
    · exact ih _ (Nat.mod_lt _ (by omega)) (fun x hx => hl x (by simp [hx]))

/-! ### Permutation-table lemmas -/

theorem length_setInvLoop (perm : List Nat) :
    ∀ (idxs inv : List Nat), (setInvLoop perm inv idxs).length = inv.length := by
  intro idxs
  induction idxs with
  | nil => intro inv; rfl
  | cons i rest ih =>
    intro inv
    simp [setInvLoop, ih]

theorem mem_setInvLoop_lt (perm : List Nat) {m : Nat} :
    ∀ (idxs inv : List Nat), (∀ x ∈ inv, x < m) → (∀ i ∈ idxs, i < m) →
      ∀ x ∈ setInvLoop perm inv idxs, x < m := by
  intro idxs
  induction idxs with
  | nil => intro inv hi _ x hx; exact hi x hx
  | cons i rest ih =>
    intro inv hi hidx x hx
    refine ih _ ?_ (fun j hj => hidx j (by simp [hj])) x hx
    intro y hy
    rcases List.mem_or_eq_of_mem_set hy with hy | hy
    · exact hi y hy
    · rw [hy]; exact hidx i (by simp)

theorem setInvLoop_getD_stable (perm : List Nat) :
    ∀ (idxs inv : List Nat) (pos : Nat), (∀ i ∈ idxs, perm.getD i 0 ≠ pos) →
      (setInvLoop perm inv idxs).getD pos 0 = inv.getD pos 0 := by
  intro idxs
  induction idxs with
  | nil => intro inv pos _; rfl
  | cons i rest ih =>
    intro inv pos hne
    rw [setInvLoop, ih _ _ (fun j hj => hne j (by simp [hj]))]
    simp only [List.getD_eq_getElem?_getD]
    rw [List.getElem?_set_ne (show perm[i]?.getD 0 ≠ pos by
      simpa using hne i (by simp))]

/-! ### Inverse-permutation correctness -/

theorem getD_mem {α : Type} {l : List α} {d : Nat} (x : α) (hd : d < l.length) :
    l.getD d x ∈ l := by
  rw [List.getD_eq_getElem?_getD, List.getElem?_eq_getElem hd]
  simp only [Option.getD_some]
  exact List.getElem_mem hd

theorem getD_injective {perm : List Nat} (hnodup : perm.Nodup) {d e : Nat}
    (hd : d < perm.length) (he : e < perm.length)
    (h : perm.getD d 0 = perm.getD e 0) : d = e := by
  have hd2 : perm.getD d 0 = perm[d] := by
    rw [List.getD_eq_getElem?_getD, List.getElem?_eq_getElem hd, Option.getD_some]
  have he2 : perm.getD e 0 = perm[e] := by
    rw [List.getD_eq_getElem?_getD, List.getElem?_eq_getElem he, Option.getD_some]
  rw [hd2, he2] at h
  exact (List.Nodup.getElem_inj_iff hnodup).mp h

theorem setInvLoop_getD_of_mem {perm : List Nat} (hnodup : perm.Nodup)
    (hbound : ∀ x ∈ perm, x < perm.length) :
    ∀ (idxs inv : List Nat), idxs.Nodup → (∀ i ∈ idxs, i < perm.length) →
      inv.length = perm.length →
      ∀ d ∈ idxs, (setInvLoop perm inv idxs).getD (perm.getD d 0) 0 = d := by
  intro idxs
  induction idxs with
  | nil =>
    intro inv _ _ _ d hd
    simp at hd
  | cons i rest ih =>
    intro inv hnd hlt hlen d hd
    have hi : i < perm.length := hlt i (by simp)
    rcases List.mem_cons.mp hd with rfl | hdr
    · have hnotin : d ∉ rest := (List.nodup_cons.mp hnd).1
      rw [setInvLoop, setInvLoop_getD_stable]
      · simp only [List.getD_eq_getElem?_getD]
        rw [List.getElem?_set_self (by
          rw [hlen]
          have := hbound _ (getD_mem 0 hi)
          simpa using this)]
        rfl
      · intro j hj heq
        exact hnotin (by
          have hjd := getD_injective hnodup (hlt j (by simp [hj])) hi heq
          rwa [hjd] at hj)
    · exact ih _ (List.nodup_cons.mp hnd).2 (fun j hj => hlt j (by simp [hj]))
        (by rw [List.length_set, hlen]) d hdr

theorem length_inverse_permutation (perm : List Nat) :
    (inverse_permutation perm).length = perm.length := by
  unfold inverse_permutation
  rw [length_setInvLoop, List.length_replicate]

theorem mem_inverse_permutation_lt {perm : List Nat} (hpos : 0 < perm.length) :
    ∀ x ∈ inverse_permutation perm, x < perm.length := by
  unfold inverse_permutation
  exact mem_setInvLoop_lt perm _ _
    (fun x hx => by rw [List.eq_of_mem_replicate hx]; exact hpos)
    (fun i hi => List.mem_range.mp hi)

theorem inverse_permutation_getD {perm : List Nat} (hnodup : perm.Nodup)
    (hbound : ∀ x ∈ perm, x < perm.length) {d : Nat} (hd : d < perm.length) :
    (inverse_permutation perm).getD (perm.getD d 0) 0 = d := by
  unfold inverse_permutation
  exact setInvLoop_getD_of_mem hnodup hbound (List.range perm.length)
    (List.replicate perm.length 0) (List.nodup_range _) (fun i hi => List.mem_range.mp hi)
    (by simp) d (List.mem_range.mpr hd)

theorem permute_backward_forward {perm : List Nat} (hnodup : perm.Nodup)
    (hbound : ∀ x ∈ perm, x < perm.length) (l : List Nat)
    (hl : ∀ d ∈ l, d < perm.length) :
    permute_backward perm (permute_forward perm l) = l := by
  unfold permute_forward permute_backward
  rw [List.map_map]
  have hstep : ∀ d ∈ l,
      (inverse_permutation perm).getD (perm.getD d 0) 0 = d :=
    fun d hd => inverse_permutation_getD hnodup hbound (hl d hd)
  calc l.map ((fun d => (inverse_permutation perm).getD d 0) ∘ fun d => perm.getD d 0)
      = l.map id := List.map_congr_left (fun d hd => hstep d hd)
    _ = l := List.map_id l

theorem mem_permute_forward_lt {perm : List Nat} {m : Nat}
    (hbound : ∀ x ∈ perm, x < m) {l : List Nat} (hl : ∀ d ∈ l, d < perm.length) :
    ∀ x ∈ permute_forward perm l, x < m := by
  intro x hx
  unfold permute_forward at hx
  rcases List.mem_map.mp hx with ⟨d, hd, rfl⟩
  exact hbound _ (getD_mem 0 (hl d hd))

theorem mem_permute_backward_lt {perm : List Nat} (hpos : 0 < perm.length)
    {l : List Nat} (hl : ∀ d ∈ l, d < perm.length) :
    ∀ x ∈ permute_backward perm l, x < perm.length := by
  intro x hx
  unfold permute_backward at hx
  rcases List.mem_map.mp hx with ⟨d, hd, rfl⟩
  exact mem_inverse_permutation_lt hpos _
    (getD_mem 0 (by rw [length_inverse_permutation]; exact hl d hd))

/-! ### Round lemmas -/

theorem length_encodeRound (c : Cipher) (l : List Nat) :
    (encodeRound c l).length = l.length := by
  unfold encodeRound permute_forward
  rw [length_rotate_left, length_cascade_forward, length_rotate_left,
    List.length_map, length_rotate_left]

theorem length_decodeRound (c : Cipher) (l : List Nat) :
    (decodeRound c l).length = l.length := by
  unfold decodeRound permute_backward
  rw [length_rotate_right, List.length_map, length_rotate_right,
    length_cascade_backward, length_rotate_right]

theorem mem_encodeRound_lt {c : Cipher} (h : Valid c) (l : List Nat) :
    ∀ x ∈ encodeRound c l, x < c.alphabet.length := by
  obtain ⟨h2, _, _, _, hplen, hpnd, hpb⟩ := h
  have hb : 0 < c.alphabet.length := by omega
  intro x hx
  unfold encodeRound at hx
  exact mem_cascade_forward_lt hb _ _ _ (mem_rotate_left hx)

theorem mem_decodeRound_lt {c : Cipher} (h : Valid c) (l : List Nat) :
    ∀ x ∈ decodeRound c l, x < c.alphabet.length := by
  obtain ⟨h2, _, _, _, hplen, hpnd, hpb⟩ := h
  have hb : 0 < c.alphabet.length := by omega
  intro x hx
  unfold decodeRound at hx
  have hx2 := mem_rotate_right hx
  have hargs : ∀ d ∈ rotate_right
      (cascade_backward c.alphabet.length 0 (rotate_right l)),
      d < c.permutation.length := by
    rw [hplen]
    intro d hd
    exact mem_cascade_backward_lt hb _ _ _ (mem_rotate_right hd)
  have hres := mem_permute_backward_lt (by rw [hplen]; omega) hargs x hx2
  rw [hplen] at hres
  exact hres

theorem decodeRound_encodeRound {c : Cipher} (h : Valid c) {l : List Nat}
    (hl : ∀ d ∈ l, d < c.alphabet.length) :
    decodeRound c (encodeRound c l) = l := by
  obtain ⟨h2, _, _, _, hplen, hpnd, hpb⟩ := h
  have hb : 0 < c.alphabet.length := by omega
  have hb1 : ∀ d ∈ rotate_left l, d < c.alphabet.length :=
    fun d hd => hl d (mem_rotate_left hd)
  have hb1p : ∀ d ∈ rotate_left l, d < c.permutation.length := by
    rw [hplen]; exact hb1
  have hb2 : ∀ d ∈ permute_forward c.permutation (rotate_left l),
      d < c.alphabet.length :=
    mem_permute_forward_lt hpb hb1p
  have hb3 : ∀ d ∈ rotate_left (permute_forward c.permutation (rotate_left l)),
      d < c.alphabet.length :=
    fun d hd => hb2 d (mem_rotate_left hd)
  unfold encodeRound decodeRound
  rw [rotate_right_rotate_left,
    cascade_backward_forward _ 0 hb hb3,
    rotate_right_rotate_left,
    permute_backward_forward hpnd (by rw [hplen]; exact hpb) _ hb1p,
    rotate_right_rotate_left]

/-! ### Iterated rounds -/

theorem foldl_range_const {α : Type} (f : α → α) :
    ∀ (n : Nat) (x : α), (List.range n).foldl (fun b _ => f b) x = f^[n] x := by
  intro n
  induction n with
  | zero => intro x; rfl
  | succ n ih =>
    intro x
    rw [List.range_succ, List.foldl_append, ih]
    simp only [List.foldl_cons, List.foldl_nil]
    exact (Function.iterate_succ_apply' f n x).symm

theorem mem_encodeRound_iterate_lt {c : Cipher} (h : Valid c) :
    ∀ (k : Nat) (l : List Nat), (∀ d ∈ l, d < c.alphabet.length) →
      ∀ x ∈ (encodeRound c)^[k] l, x < c.alphabet.length := by
  intro k
  induction k with
  | zero => intro l hl; simpa using hl
  | succ k ih =>
    intro l hl
    rw [Function.iterate_succ_apply]
    exact ih _ (mem_encodeRound_lt h l)

theorem length_encodeRound_iterate (c : Cipher) :
    ∀ (k : Nat) (l : List Nat), ((encodeRound c)^[k] l).length = l.length := by
  intro k
  induction k with
  | zero => intro l; rfl
  | succ k ih =>
    intro l
    rw [Function.iterate_succ_apply, ih, length_encodeRound]

theorem decode_iterate_encode_iterate {c : Cipher} (h : Valid c) :
    ∀ (k : Nat) (l : List Nat), (∀ d ∈ l, d < c.alphabet.length) →
      (decodeRound c)^[k] ((encodeRound c)^[k] l) = l := by
  intro k
  induction k with
  | zero => intro l _; rfl
  | succ k ih =>
    intro l hl
    rw [Function.iterate_succ_apply' (encodeRound c),
      Function.iterate_succ_apply (decodeRound c),
      decodeRound_encodeRound h (mem_encodeRound_iterate_lt h k l hl),
      ih l hl]

/-! ### Digit-conversion lemmas -/

theorem toDigitsAux_lt {b : Nat} (hb : 0 < b) :
    ∀ (fuel v : Nat), ∀ d ∈ toDigitsAux b fuel v, d < b := by
  intro fuel
  induction fuel with
  | zero =>
    intro v d hd
    simp only [toDigitsAux, List.mem_singleton] at hd
    rw [hd]
    exact Nat.mod_lt _ hb
  | succ fuel ih =>
    intro v d hd
    simp only [toDigitsAux] at hd
    split at hd
    · rcases List.mem_cons.mp hd with rfl | hd2
      · exact Nat.mod_lt _ hb
      · exact ih _ d hd2
    · simp only [List.mem_singleton] at hd
      rw [hd]
      exact Nat.mod_lt _ hb

theorem toDigitsAux_fuel {b : Nat} (hb : 2 ≤ b) :
    ∀ (v fuel1 fuel2 : Nat), v ≤ fuel1 → v ≤ fuel2 →
      toDigitsAux b fuel1 v = toDigitsAux b fuel2 v := by
  intro v
  induction v using Nat.strong_induction_on with
  | _ v ihv =>
    intro fuel1 fuel2 h1 h2
    match fuel1, fuel2 with
    | 0, 0 => rfl
    | 0, f2 + 1 =>
      obtain rfl : v = 0 := by omega
      simp [toDigitsAux]
    | f1 + 1, 0 =>
      obtain rfl : v = 0 := by omega
      simp [toDigitsAux]
    | f1 + 1, f2 + 1 =>
      simp only [toDigitsAux]
      by_cases hv : 0 < v / b
      · rw [if_pos hv, if_pos hv]
        have hvb : b ≤ v := by
          by_contra hcon
          rw [Nat.div_eq_of_lt (by omega)] at hv
          omega
        have hdiv : v / b < v := Nat.div_lt_self (by omega) hb
        have hle : v / b ≤ v - 1 := by omega
        rw [ihv (v / b) hdiv f1 f2 (by omega) (by omega)]
      · rw [if_neg hv, if_neg hv]

theorem toDigits_cons {b : Nat} (hb : 2 ≤ b) (v : Nat) :
    toDigits b v = v % b ::
      (if 0 < v / b then toDigits b (v / b) else []) := by
  unfold toDigits
  by_cases hv : 0 < v / b
  · have hvb : b ≤ v := by
      by_contra hcon
      rw [Nat.div_eq_of_lt (by omega)] at hv
      omega
    obtain ⟨w, rfl⟩ : ∃ w, v = w + 1 := ⟨v - 1, by omega⟩
    rw [if_pos hv]
    simp only [toDigitsAux, if_pos hv]
    congr 1
    refine toDigitsAux_fuel hb _ _ _ ?_ (Nat.le_refl _)
    have := Nat.div_lt_self (show 0 < w + 1 by omega) hb
    omega
  · rw [if_neg hv]
    obtain rfl | ⟨w, rfl⟩ : v = 0 ∨ ∃ w, v = w + 1 := by
      rcases v with _ | w
      · exact Or.inl rfl
      · exact Or.inr ⟨w, rfl⟩
    · rfl
    · simp [toDigitsAux, hv]

/-! ### Ceiling-logarithm lemmas -/

theorem div_ceil_le {b n : Nat} (hb : 2 ≤ b) (hn : 2 ≤ n) :
    (n + b - 1) / b ≤ n - 1 := by
  obtain ⟨m, rfl⟩ : ∃ m, n = m + 2 := ⟨n - 2, by omega⟩
  rw [Nat.div_le_iff_le_mul_add_pred (by omega)]
  have hmul : (m + 1) * 2 ≤ (m + 1) * b := Nat.mul_le_mul_left _ hb
  have hexp : b * (m + 2 - 1) = (m + 1) * b := by
    rw [show m + 2 - 1 = m + 1 by omega]
    ring
  rw [hexp]
  omega

theorem clogAux_fuel {b : Nat} :
    ∀ (n fuel1 fuel2 : Nat), n ≤ fuel1 → n ≤ fuel2 →
      clogAux b fuel1 n = clogAux b fuel2 n := by
  intro n
  induction n using Nat.strong_induction_on with
  | _ n ihn =>
    intro fuel1 fuel2 h1 h2
    match fuel1, fuel2 with
    | 0, 0 => rfl
    | 0, f2 + 1 =>
      obtain rfl : n = 0 := by omega
      simp [clogAux]
    | f1 + 1, 0 =>
      obtain rfl : n = 0 := by omega
      simp [clogAux]
    | f1 + 1, f2 + 1 =>
      simp only [clogAux]
      by_cases hcond : 2 ≤ b ∧ 2 ≤ n
      · rw [if_pos hcond, if_pos hcond]
        have hlt : (n + b - 1) / b ≤ n - 1 := div_ceil_le hcond.1 hcond.2
        rw [ihn ((n + b - 1) / b) (by omega) f1 f2 (by omega) (by omega)]
      · rw [if_neg hcond, if_neg hcond]

theorem clogN_one (b : Nat) : clogN b 1 = 0 := by
  simp [clogN, clogAux]

theorem clogN_succ_div {b v : Nat} (hb : 2 ≤ b) (hv : 1 ≤ v) :
    clogN b (v + 1) = clogN b (v / b + 1) + 1 := by
  unfold clogN
  obtain ⟨w, hw⟩ : ∃ w, v + 1 = w + 1 := ⟨v, rfl⟩
  rw [hw]
  simp only [clogAux, if_pos (by omega : 2 ≤ b ∧ 2 ≤ w + 1)]
  congr 1
  have hdiv : (w + 1 + b - 1) / b = v / b + 1 := by
    have : w + 1 + b - 1 = v + b := by omega
    rw [this, Nat.add_div_right _ (by omega)]
  rw [hdiv]
  refine clogAux_fuel _ _ _ ?_ (Nat.le_refl _)
  have hd2 : v / b < v := Nat.div_lt_self (by omega) hb
  omega

theorem clogN_pos {b v : Nat} (hb : 2 ≤ b) (hv : 1 ≤ v) :
    1 ≤ clogN b (v + 1) := by
  rw [clogN_succ_div hb hv]
  omega

theorem toDigits_length {b : Nat} (hb : 2 ≤ b) :
    ∀ v : Nat, (toDigits b v).length = max 1 (clogN b (v + 1)) := by
  intro v
  induction v using Nat.strong_induction_on with
  | _ v ihv =>
    rw [toDigits_cons hb]
    by_cases hv : 0 < v / b
    · have hvb : b ≤ v := by
        by_contra hcon
        rw [Nat.div_eq_of_lt (by omega)] at hv
        omega
      rw [if_pos hv]
      have hd2 : v / b < v := Nat.div_lt_self (by omega) hb
      rw [List.length_cons, ihv _ hd2]
      have h1 := clogN_pos hb (show 1 ≤ v / b by omega)
      have h2 := clogN_succ_div hb (show 1 ≤ v by omega)
      have h3 := clogN_pos hb (show 1 ≤ v by omega)
      omega
    · rw [if_neg hv]
      rcases Nat.eq_zero_or_pos v with rfl | hvpos
      · rw [clogN_one]
        rfl
      · have hz : v / b = 0 := Nat.eq_zero_of_not_pos hv
        have h2 := clogN_succ_div hb hvpos
        rw [hz, clogN_one] at h2
        rw [List.length_cons, List.length_nil, h2]
        omega

/-! ### Value-conversion lemmas -/

theorem foldl_pure_ge {base : Nat} (hb : 1 ≤ base) :
    ∀ (l : List Nat) (a : Nat), a ≤ l.foldl (fun acc d => acc * base + d) a := by
  intro l
  induction l with
  | nil => intro a; exact Nat.le_refl a
  | cons d rest ih =>
    intro a
    simp only [List.foldl_cons]
    refine Nat.le_trans ?_ (ih (a * base + d))
    have := Nat.mul_le_mul_left a hb
    omega

theorem foldl_mod_eq_pure {base : Nat} (hb : 1 ≤ base) :
    ∀ (l : List Nat) (a : Nat),
      l.foldl (fun acc d => acc * base + d) a < 2 ^ 64 →
      l.foldl (fun acc d => (acc * base + d) % 2 ^ 64) a
        = l.foldl (fun acc d => acc * base + d) a := by
  intro l
  induction l with
  | nil => intro a _; rfl
  | cons d rest ih =>
    intro a hlt
    simp only [List.foldl_cons] at hlt ⊢
    have hsmall : a * base + d < 2 ^ 64 :=
      Nat.lt_of_le_of_lt (foldl_pure_ge hb rest _) hlt
    rw [Nat.mod_eq_of_lt hsmall]
    exact ih _ hlt

theorem foldl_pure_digits {b : Nat} (hb : 2 ≤ b) :
    ∀ (v a : Nat),
      ((toDigits b v).reverse).foldl (fun acc d => acc * b + d) a
        = a * b ^ (toDigits b v).length + v := by
  intro v
  induction v using Nat.strong_induction_on with
  | _ v ihv =>
    intro a
    rw [toDigits_cons hb]
    by_cases hv : 0 < v / b
    · rw [if_pos hv]
      have hvpos : 0 < v := by
        rcases Nat.eq_zero_or_pos v with rfl | h
        · simp at hv
        · exact h
      have hd2 : v / b < v := Nat.div_lt_self hvpos hb
      simp only [List.reverse_cons, List.foldl_append, List.foldl_cons,
        List.foldl_nil, List.length_cons]
      rw [ihv _ hd2 a]
      have halg : (a * b ^ (toDigits b (v / b)).length + v / b) * b + v % b
          = a * (b ^ (toDigits b (v / b)).length * b) + (b * (v / b) + v % b) := by
        ring
      rw [halg, Nat.div_add_mod, ← pow_succ]
    · rw [if_neg hv]
      have hz : v / b = 0 := Nat.eq_zero_of_not_pos hv
      have hvb : v < b := by
        by_contra hcon
        have hdd := Nat.div_le_div_right (c := b) (Nat.le_of_not_lt hcon)
        rw [Nat.div_self (by omega)] at hdd
        omega
      simp only [List.reverse_cons, List.reverse_nil, List.nil_append,
        List.foldl_cons, List.foldl_nil, List.length_cons, List.length_nil]
      rw [Nat.mod_eq_of_lt hvb, pow_one]

/-! ### Digit-buffer conversion lemmas -/

theorem convert_to_base_length {c : Cipher} (h2 : 2 ≤ c.alphabet.length)
    (hm : 1 ≤ c.min_length) (v : Nat) :
    (convert_to_base c v).length
      = max (clogN c.alphabet.length (v + 1)) c.min_length := by
  simp only [convert_to_base]
  rw [List.length_append, List.length_replicate, List.length_reverse,
    toDigits_length h2]
  omega

theorem convert_to_base_lt {c : Cipher} (h2 : 2 ≤ c.alphabet.length) (v : Nat) :
    ∀ d ∈ convert_to_base c v, d < c.alphabet.length := by
  intro d hd
  simp only [convert_to_base, List.mem_append, List.mem_reverse] at hd
  rcases hd with hd | hd
  · rw [List.eq_of_mem_replicate hd]
    omega
  · exact toDigitsAux_lt (by omega) _ _ d hd

theorem convert_to_value_base {c : Cipher} (h2 : 2 ≤ c.alphabet.length)
    (v : Nat) (hv : v < 2 ^ 64) :
    convert_to_value c (convert_to_base c v) = v := by
  simp only [convert_to_value, convert_to_base]
  rw [List.foldl_append]
  have hzeros : ∀ k, (List.replicate k 0).foldl
      (fun value d => (value * c.alphabet.length + d) % 2 ^ 64) 0 = 0 := by
    intro k
    induction k with
    | zero => rfl
    | succ k ih =>
      rw [List.replicate_succ, List.foldl_cons]
      simpa using ih
  rw [hzeros]
  rw [foldl_mod_eq_pure (by omega)]
  · rw [foldl_pure_digits (by omega)]
    simp
  · rw [foldl_pure_digits (by omega)]
    simpa using hv

/-! ### String-conversion lemmas -/

theorem convert_from_base_to_string {c : Cipher} (hnd : c.alphabet.Nodup)
    {l : List Nat} (hl : ∀ d ∈ l, d < c.alphabet.length) :
    convert_from_base c (convert_to_string c l) = .ok l := by
  induction l with
  | nil => rfl
  | cons d rest ih =>
    have hd : d < c.alphabet.length := hl d (by simp)
    have hchar : c.alphabet.getD d 'A' = c.alphabet[d] := by
      rw [List.getD_eq_getElem?_getD, List.getElem?_eq_getElem hd, Option.getD_some]
    simp only [convert_to_string, List.map_cons] at ih ⊢
    simp only [convert_from_base]
    rw [hchar, if_pos (List.getElem_mem hd), ih (fun x hx => hl x (by simp [hx]))]
    rw [List.indexOf_getElem hnd d hd]

theorem length_convert_to_string (c : Cipher) (l : List Nat) :
    (convert_to_string c l).length = l.length := by
  simp [convert_to_string]

theorem mem_decodeRound_iterate_lt {c : Cipher} (h : Valid c) :
    ∀ (k : Nat) (l : List Nat), (∀ d ∈ l, d < c.alphabet.length) →
      ∀ x ∈ (decodeRound c)^[k] l, x < c.alphabet.length := by
  intro k
  induction k with
  | zero => intro l hl; simpa using hl
  | succ k ih =>
    intro l hl
    rw [Function.iterate_succ_apply]
    exact ih _ (mem_decodeRound_lt h l)

theorem convert_from_base_lt {c : Cipher} :
    ∀ (s : List Char) (buf : List Nat), convert_from_base c s = .ok buf →
      ∀ d ∈ buf, d < c.alphabet.length := by
  intro s
  induction s with
  | nil =>
    intro buf h d hd
    cases h
    simp at hd
  | cons ch rest ih =>
    intro buf h d hd
    simp only [convert_from_base] at h
    split at h
    case isTrue hmem =>
      cases hrec : convert_from_base c rest with
      | error e =>
        rw [hrec] at h
        exact absurd h (by simp)
      | ok ds =>
        rw [hrec] at h
        injection h with h
        subst h
        rcases List.mem_cons.mp hd with rfl | hd2
        · exact List.indexOf_lt_length.mpr hmem
        · exact ih ds hrec d hd2
    case isFalse hmem => exact absurd h (by simp)

end schrott_id

namespace schrott_id

/-! ## Claim theorems for the cipher -/

/-- Round-trip under the intended exact-arithmetic digit count: for every
valid cipher instance and every `v < 2 ^ 64`, `decode (encode v) = ok v`
holds in this model.  The shipped `double` length computation violates
this at concrete inputs (see the C1 code-bug finding), so this records
what the intended computation satisfies, not what the binary does on its
whole domain. -/
theorem roundtrip_exact_model (c : Cipher) (h : Valid c) (v : Nat) (hv : v < 2 ^ 64) :
    decode c (encode c v) = .ok v := by
  have h2 := h.1
  have hand := h.2.2.1
  have hbound := convert_to_base_lt h2 v
  simp only [encode, decode]
  rw [foldl_range_const (encodeRound c)]
  rw [convert_from_base_to_string hand
    (mem_encodeRound_iterate_lt h _ _ hbound)]
  simp only []
  rw [foldl_range_const (decodeRound c)]
  rw [length_encodeRound_iterate]
  rw [decode_iterate_encode_iterate h _ _ hbound]
  rw [convert_to_value_base h2 v hv]

/-- The exact-model round-trip evaluated at the two-character alphabet
`"AB"` with permutation `[1, 0]`, minimum length 1, `v = 2` (an input on
which the `double` arithmetic agrees with the exact model). -/
theorem roundtrip_exact_model_witness :
    Valid ⟨['A', 'B'], [1, 0], 1⟩ ∧ (2 : Nat) < 2 ^ 64 ∧
      decode ⟨['A', 'B'], [1, 0], 1⟩ (encode ⟨['A', 'B'], [1, 0], 1⟩ 2) = .ok 2 :=
  ⟨by decide, by decide, roundtrip_exact_model _ (by decide) 2 (by decide)⟩

/-- C2 as stated is false: the outer loop of `encode` runs
`buf.size() * 3` times (each iteration performing the full five-operation
sequence), not `digit_count` times.  With alphabet `"AB"`, identity
permutation and `min_length = 1`, encoding `v = 2` differs from what
`digit_count` repetitions would produce. -/
theorem C2_counterexample :
    encodeSpecC2 ⟨['A', 'B'], [0, 1], 1⟩ 2 ≠ encode ⟨['A', 'B'], [0, 1], 1⟩ 2 := by
  decide

/-- C2 (amended): the five-operation sequence rotate-left, permute-forward,
rotate-left, cascade-forward, rotate-left executes exactly
`3 * digit_count` times, i.e. `encode` applies the round body iterated
`3 * digit_count` times to the digit buffer. -/
theorem C2_transform_rounds (c : Cipher) (v : Nat) :
    encode c v = convert_to_string c
      ((encodeRound c)^[3 * (convert_to_base c v).length] (convert_to_base c v)) := by
  simp only [encode]
  rw [foldl_range_const (encodeRound c), Nat.mul_comm]

/-- Digit-buffer shape under the intended exact-arithmetic length: the
buffer has length `max(ceil(log_base(v+1)), min_length)` (exact ceiling),
every encoded string has at least `min_length` characters, and `encode 0`
builds a buffer of exactly `min_length` zero digits before the transform
rounds.  The shipped `double` arithmetic deviates from the first conjunct
at concrete inputs (see the C3 code-bug finding). -/
theorem digit_count_exact_model (c : Cipher) (h : Valid c) (v : Nat) :
    (convert_to_base c v).length
        = max (clogN c.alphabet.length (v + 1)) c.min_length ∧
      c.min_length ≤ (encode c v).length ∧
      convert_to_base c 0 = List.replicate c.min_length 0 := by
  have h2 := h.1
  have hmin := h.2.2.2.1
  refine ⟨convert_to_base_length h2 hmin v, ?_, ?_⟩
  · simp only [encode]
    rw [length_convert_to_string, foldl_range_const (encodeRound c),
      length_encodeRound_iterate, convert_to_base_length h2 hmin v]
    omega
  · simp only [convert_to_base]
    rw [show toDigits c.alphabet.length 0 = [0] from by simp [toDigits, toDigitsAux],
      clogN_one]
    simp only [List.reverse_cons, List.reverse_nil, List.nil_append,
      List.length_cons, List.length_nil, Nat.zero_max]
    obtain ⟨m, hm⟩ : ∃ m, c.min_length = m + 1 := ⟨c.min_length - 1, by omega⟩
    rw [hm, Nat.succ_sub_one]
    exact (List.replicate_succ' m 0).symm


/-- The exact-model digit-count facts evaluated at the two-character
alphabet and `v = 5`. -/
theorem digit_count_exact_model_witness :
    Valid ⟨['A', 'B'], [1, 0], 2⟩ ∧
      ((convert_to_base ⟨['A', 'B'], [1, 0], 2⟩ 5).length
          = max (clogN 2 6) 2 ∧
        2 ≤ (encode ⟨['A', 'B'], [1, 0], 2⟩ 5).length ∧
        convert_to_base ⟨['A', 'B'], [1, 0], 2⟩ 0 = List.replicate 2 0) :=
  ⟨by decide, digit_count_exact_model _ (by decide) 5⟩

/-- C4: cascade-backward is the true left inverse of cascade-forward on
buffers whose digits are all below the base. -/
theorem C4_cascade_roundtrip (base : Nat) (l : List Nat)
    (h : ∀ d ∈ l, d < base) :
    cascade_backward base 0 (cascade_forward base 0 l) = l := by
  cases l with
  | nil => rfl
  | cons d rest =>
    have hb : 0 < base := by
      have := h d (by simp)
      omega
    exact cascade_backward_forward _ 0 hb h

/-- Witness for C4 at base 4 and buffer `[1, 3, 2, 0]`. -/
theorem C4_cascade_roundtrip_witness :
    (∀ d ∈ [1, 3, 2, 0], d < 4) ∧
      cascade_backward 4 0 (cascade_forward 4 0 [1, 3, 2, 0]) = [1, 3, 2, 0] :=
  ⟨by decide, C4_cascade_roundtrip 4 [1, 3, 2, 0] (by decide)⟩

/-- The digit-bound invariant under the intended exact-arithmetic base
conversion: it produces digits below the alphabet size, every
encode-round and decode-round iterate preserves that bound, and the
alphabet lookup of `convert_to_string` only uses in-range indices (every
produced character is a member of the alphabet).  The shipped code
violates the in-bounds property inside `convert_to_base` itself when the
`double` length under-estimates (see the C10 code-bug finding); the
transform rounds and lookups modelled here do preserve the bound. -/
theorem digit_invariant_exact_model (c : Cipher) (h : Valid c) (v : Nat) (k : Nat) :
    (∀ d ∈ convert_to_base c v, d < c.alphabet.length) ∧
      (∀ d ∈ (encodeRound c)^[k] (convert_to_base c v), d < c.alphabet.length) ∧
      (∀ s buf, convert_from_base c s = .ok buf →
        ∀ d ∈ (decodeRound c)^[k] buf, d < c.alphabet.length) ∧
      (∀ l : List Nat, (∀ d ∈ l, d < c.alphabet.length) →
        ∀ ch ∈ convert_to_string c l, ch ∈ c.alphabet) := by
  have h2 := h.1
  refine ⟨convert_to_base_lt h2 v, ?_, ?_, ?_⟩
  · exact mem_encodeRound_iterate_lt h _ _ (convert_to_base_lt h2 v)
  · intro s buf hbuf
    exact mem_decodeRound_iterate_lt h _ _ (convert_from_base_lt s buf hbuf)
  · intro l hl ch hch
    simp only [convert_to_string, List.mem_map] at hch
    rcases hch with ⟨d, hd, rfl⟩
    exact getD_mem 'A' (hl d hd)

/-- The exact-model invariant evaluated at the two-character alphabet,
`v = 2`, `k = 3`. -/
theorem digit_invariant_exact_model_witness :
    Valid ⟨['A', 'B'], [1, 0], 1⟩ ∧
      (∀ d ∈ convert_to_base ⟨['A', 'B'], [1, 0], 1⟩ 2, d < 2) :=
  ⟨by decide, (digit_invariant_exact_model _ (by decide) 2 3).1⟩

/-! ### Constructor characterization (C8) -/

theorem mk_isOk_iff (a p : List Char) (m : Int) :
    base64.isErr (mk a p m) = false ↔
      (2 ≤ a.length ∧ a.length ≤ 256 ∧ a.Nodup ∧ 0 < m ∧
        ∃ bytes, base64.decode p = .ok bytes ∧ bytes.length = a.length ∧
          bytes.Nodup ∧ bytes.min? = some 0 ∧
          bytes.max? = some (a.length - 1)) := by
  constructor
  · intro h
    unfold mk at h
    by_cases hA : a.length ≤ 1 ∨ 256 < a.length
    · rw [if_pos hA] at h
      simp [base64.isErr] at h
    rw [if_neg hA] at h
    by_cases hB : ¬a.Nodup
    · rw [if_pos hB] at h
      simp [base64.isErr] at h
    rw [if_neg hB] at h
    by_cases hC : m ≤ 0
    · rw [if_pos hC] at h
      simp [base64.isErr] at h
    rw [if_neg hC] at h
    cases hdec : base64.decode p with
    | error e =>
      rw [hdec] at h
      simp [base64.isErr] at h
    | ok bytes =>
      rw [hdec] at h
      simp only [] at h
      by_cases hD : bytes.length ≠ a.length
      · rw [if_pos hD] at h
        simp [base64.isErr] at h
      rw [if_neg hD] at h
      by_cases hE : ¬bytes.Nodup
      · rw [if_pos hE] at h
        simp [base64.isErr] at h
      rw [if_neg hE] at h
      by_cases hF : bytes.min? ≠ some 0 ∨ bytes.max? ≠ some (a.length - 1)
      · rw [if_pos hF] at h
        simp [base64.isErr] at h
      push_neg at hF
      exact ⟨by omega, by omega, not_not.mp hB, by omega, bytes, rfl,
        by omega, not_not.mp hE, hF.1, hF.2⟩
  · rintro ⟨h2, h256, hnd, hm, bytes, hdec, hlen, hbnd, hmin, hmax⟩
    unfold mk
    rw [if_neg (by omega), if_neg (by simpa using hnd), if_neg (by omega), hdec]
    simp only []
    rw [if_neg (by omega), if_neg (by simpa using hbnd),
      if_neg (by simp [hmin, hmax])]
    rfl

theorem mk_err_alphabet_size (a p : List Char) (m : Int)
    (h : a.length ≤ 1 ∨ 256 < a.length) :
    mk a p m = .error "Alphabet must have 2 to 256 characters" := by
  unfold mk
  rw [if_pos h]

theorem mk_err_alphabet_dup (a p : List Char) (m : Int)
    (h2 : 2 ≤ a.length) (h256 : a.length ≤ 256) (hnd : ¬a.Nodup) :
    mk a p m = .error "Alphabet must have unique characters" := by
  unfold mk
  rw [if_neg (by omega), if_pos hnd]

theorem mk_err_min_length (a p : List Char) (m : Int)
    (h2 : 2 ≤ a.length) (h256 : a.length ≤ 256) (hnd : a.Nodup) (hm : m ≤ 0) :
    mk a p m = .error "min_length must be greater than 0" := by
  unfold mk
  rw [if_neg (by omega), if_neg (by simpa using hnd), if_pos hm]

theorem mk_err_base64 (a p : List Char) (m : Int) (e : String)
    (h2 : 2 ≤ a.length) (h256 : a.length ≤ 256) (hnd : a.Nodup) (hm : 0 < m)
    (hdec : base64.decode p = .error e) : mk a p m = .error e := by
  unfold mk
  rw [if_neg (by omega), if_neg (by simpa using hnd), if_neg (by omega), hdec]

theorem mk_err_perm_length (a p : List Char) (m : Int) (bytes : List Nat)
    (h2 : 2 ≤ a.length) (h256 : a.length ≤ 256) (hnd : a.Nodup) (hm : 0 < m)
    (hdec : base64.decode p = .ok bytes) (hne : bytes.length ≠ a.length) :
    mk a p m = .error "Permutation length must be equal to alphabet length" := by
  unfold mk
  rw [if_neg (by omega), if_neg (by simpa using hnd), if_neg (by omega), hdec]
  simp only []
  rw [if_pos hne]

theorem mk_err_perm_dup (a p : List Char) (m : Int) (bytes : List Nat)
    (h2 : 2 ≤ a.length) (h256 : a.length ≤ 256) (hnd : a.Nodup) (hm : 0 < m)
    (hdec : base64.decode p = .ok bytes) (hlen : bytes.length = a.length)
    (hbnd : ¬bytes.Nodup) :
    mk a p m = .error "Invalid permutation. All positions must be unique." := by
  unfold mk
  rw [if_neg (by omega), if_neg (by simpa using hnd), if_neg (by omega), hdec]
  simp only []
  rw [if_neg (by omega), if_pos hbnd]

theorem mk_err_perm_range (a p : List Char) (m : Int) (bytes : List Nat)
    (h2 : 2 ≤ a.length) (h256 : a.length ≤ 256) (hnd : a.Nodup) (hm : 0 < m)
    (hdec : base64.decode p = .ok bytes) (hlen : bytes.length = a.length)
    (hbnd : bytes.Nodup)
    (hrange : bytes.min? ≠ some 0 ∨ bytes.max? ≠ some (a.length - 1)) :
    mk a p m = .error "Invalid permutation. Invalid indices for used alphabet." := by
  unfold mk
  rw [if_neg (by omega), if_neg (by simpa using hnd), if_neg (by omega), hdec]
  simp only []
  rw [if_neg (by omega), if_neg (by simpa using hbnd), if_pos hrange]

end schrott_id

namespace schrott_id

/-- C8: construction succeeds exactly when the alphabet has 2–256 unique
characters, the minimum length is positive, and the permutation parameter
is well-formed Base64 decoding to `alphabet.size()` pairwise-distinct
bytes with minimum 0 and maximum `alphabet.size() - 1`; any violation
aborts with the error of the first failing check in source order (so no
partially built instance is observable). -/
theorem C8_construction (a p : List Char) (m : Int) :
    (base64.isErr (mk a p m) = false ↔
      (2 ≤ a.length ∧ a.length ≤ 256 ∧ a.Nodup ∧ 0 < m ∧
        ∃ bytes, base64.decode p = .ok bytes ∧ bytes.length = a.length ∧
          bytes.Nodup ∧ bytes.min? = some 0 ∧
          bytes.max? = some (a.length - 1))) ∧
    (a.length ≤ 1 ∨ 256 < a.length →
      mk a p m = .error "Alphabet must have 2 to 256 characters") ∧
    (2 ≤ a.length → a.length ≤ 256 → ¬a.Nodup →
      mk a p m = .error "Alphabet must have unique characters") ∧
    (2 ≤ a.length → a.length ≤ 256 → a.Nodup → m ≤ 0 →
      mk a p m = .error "min_length must be greater than 0") ∧
    (∀ e, 2 ≤ a.length → a.length ≤ 256 → a.Nodup → 0 < m →
      base64.decode p = .error e → mk a p m = .error e) ∧
    (∀ bytes, 2 ≤ a.length → a.length ≤ 256 → a.Nodup → 0 < m →
      base64.decode p = .ok bytes → bytes.length ≠ a.length →
      mk a p m = .error "Permutation length must be equal to alphabet length") ∧
    (∀ bytes, 2 ≤ a.length → a.length ≤ 256 → a.Nodup → 0 < m →
      base64.decode p = .ok bytes → bytes.length = a.length → ¬bytes.Nodup →
      mk a p m = .error "Invalid permutation. All positions must be unique.") ∧
    (∀ bytes, 2 ≤ a.length → a.length ≤ 256 → a.Nodup → 0 < m →
      base64.decode p = .ok bytes → bytes.length = a.length → bytes.Nodup →
      bytes.min? ≠ some 0 ∨ bytes.max? ≠ some (a.length - 1) →
      mk a p m = .error "Invalid permutation. Invalid indices for used alphabet.") :=
  ⟨mk_isOk_iff a p m,
    mk_err_alphabet_size a p m,
    mk_err_alphabet_dup a p m,
    mk_err_min_length a p m,
    fun e => mk_err_base64 a p m e,
    fun bytes => mk_err_perm_length a p m bytes,
    fun bytes => mk_err_perm_dup a p m bytes,
    fun bytes h1 h2 h3 h4 h5 h6 h7 h8 =>
      mk_err_perm_range a p m bytes h1 h2 h3 h4 h5 h6 h7 h8⟩

/-- Witness for C8: the alphabet `"AB"` with permutation string `"AQA="`
(decoding to `[1, 0]`) and `min_length = 1` constructs successfully. -/
theorem C8_construction_witness :
    base64.isErr (mk ['A', 'B'] ['A', 'Q', 'A', '='] 1) = false :=
  (C8_construction ['A', 'B'] ['A', 'Q', 'A', '='] 1).1.mpr
    ⟨by decide, by decide, by decide, by decide, [1, 0], by decide, by decide,
      by decide, by decide, by decide⟩

/-! ### Fisher-Yates shuffle (C9) -/

theorem swapL_length (l : List Nat) (i j : Nat) :
    (swapL l i j).length = l.length := by
  simp [swapL]

theorem mem_swapL {l : List Nat} {i j : Nat} (hi : i < l.length)
    (hj : j < l.length) {k : Nat} (hk : k ∈ l) : k ∈ swapL l i j := by
  obtain ⟨m, hm, rfl⟩ := List.getElem_of_mem hk
  have hgi : l.getD i 0 = l[i] := by
    rw [List.getD_eq_getElem?_getD, List.getElem?_eq_getElem hi, Option.getD_some]
  have hgj : l.getD j 0 = l[j] := by
    rw [List.getD_eq_getElem?_getD, List.getElem?_eq_getElem hj, Option.getD_some]
  rw [List.mem_iff_getElem?]
  by_cases hmi : m = i
  · subst hmi
    refine ⟨j, ?_⟩
    simp only [swapL]
    rw [List.getElem?_set_self (by simpa using hj), hgi]
  · by_cases hmj : m = j
    · subst hmj
      refine ⟨i, ?_⟩
      simp only [swapL]
      rw [List.getElem?_set_ne (fun hc => hmi hc)]
      rw [List.getElem?_set_self (by simpa using hi), hgj]
    · refine ⟨m, ?_⟩
      simp only [swapL]
      rw [List.getElem?_set_ne (fun hc => hmj hc.symm),
        List.getElem?_set_ne (fun hc => hmi hc.symm)]
      exact List.getElem?_eq_getElem hm

theorem fisherYates_invariant {n : Nat} :
    ∀ (rs : List Nat) (i : Nat) (l : List Nat), l.length = n →
      i + rs.length ≤ n → (∀ r ∈ rs, r < n) → (∀ k, k < n → k ∈ l) →
      (fisherYatesAux l i rs).length = n ∧
        ∀ k, k < n → k ∈ fisherYatesAux l i rs := by
  intro rs
  induction rs with
  | nil =>
    intro i l hlen _ _ hmem
    exact ⟨hlen, hmem⟩
  | cons r rest ih =>
    intro i l hlen hi hr hmem
    simp only [fisherYatesAux]
    have hlen2 : (swapL l i r).length = n := by rw [swapL_length, hlen]
    refine ih (i + 1) (swapL l i r) hlen2 ?_ (fun x hx => hr x (by simp [hx])) ?_
    · simp only [List.length_cons] at hi
      omega
    · intro k hk
      refine mem_swapL ?_ ?_ (hmem k hk)
      · rw [hlen]
        simp only [List.length_cons] at hi
        omega
      · rw [hlen]
        exact hr r (by simp)

theorem perm_complete {l : List Nat} {n : Nat} (hlen : l.length = n)
    (hmem : ∀ k, k < n → k ∈ l) : l.Nodup ∧ ∀ x ∈ l, x < n := by
  have hsub : Finset.range n ⊆ l.toFinset := by
    intro k hk
    rw [List.mem_toFinset]
    exact hmem k (Finset.mem_range.mp hk)
  have hcard1 : n ≤ l.toFinset.card := by
    calc n = (Finset.range n).card := (Finset.card_range n).symm
      _ ≤ l.toFinset.card := Finset.card_le_card hsub
  have hcard2 : l.toFinset.card ≤ l.length := List.toFinset_card_le l
  have hfin : l.toFinset = Finset.range n := by
    refine (Finset.eq_of_subset_of_card_le hsub ?_).symm
    rw [Finset.card_range]
    omega
  constructor
  · have hd : l.dedup.length = l.length := by
      have := List.card_toFinset l
      omega
    exact List.dedup_eq_self.mp ((List.dedup_sublist l).eq_of_length hd)
  · intro x hx
    have hxf : x ∈ l.toFinset := List.mem_toFinset.mpr hx
    rw [hfin] at hxf
    exact Finset.mem_range.mp hxf

end schrott_id

namespace schrott_id

/-- C9: for every valid alphabet and every sequence of random indices
drawn from `[0, alphabet.size())` (one per position), the string returned
by `generate_permutation`, when Base64-decoded, is a complete permutation
of `[0, alphabet.size())`: pairwise unique values with minimum 0 and
maximum `alphabet.size() - 1`. -/
theorem C9_generate_permutation (alphabet : List Char) (randoms : List Nat)
    (h2 : 2 ≤ alphabet.length) (h256 : alphabet.length ≤ 256)
    (hnd : alphabet.Nodup) (hlen : randoms.length = alphabet.length)
    (hr : ∀ r ∈ randoms, r < alphabet.length) :
    ∃ bytes, generate_permutation alphabet randoms
        = .ok (base64.encode bytes) ∧
      base64.decode (base64.encode bytes) = .ok bytes ∧ bytes.Nodup ∧
      bytes.min? = some 0 ∧ bytes.max? = some (alphabet.length - 1) := by
  have hfy := fisherYates_invariant randoms 0 (List.range alphabet.length)
    (List.length_range _) (by omega) hr
    (fun k hk => List.mem_range.mpr hk)
  set perm := fisherYatesAux (List.range alphabet.length) 0 randoms with hperm
  have hcomp := perm_complete hfy.1 hfy.2
  have hbytes : ∀ b ∈ perm, b < 256 :=
    fun b hb => Nat.lt_of_lt_of_le (hcomp.2 b hb) h256
  refine ⟨perm, ?_, base64_decode_encode perm hbytes, hcomp.1, ?_, ?_⟩
  · unfold generate_permutation
    rw [if_neg (by omega), if_neg (by simpa using hnd)]
  · rw [List.min?_eq_some_iff']
    exact ⟨hfy.2 0 (by omega), fun b _ => Nat.zero_le b⟩
  · rw [List.max?_eq_some_iff']
    refine ⟨hfy.2 (alphabet.length - 1) (by omega), fun b hb => ?_⟩
    have := hcomp.2 b hb
    omega

/-- Witness for C9: alphabet `"AB"` with random indices `[1, 0]`. -/
theorem C9_generate_permutation_witness :
    ∃ bytes, generate_permutation ['A', 'B'] [1, 0]
        = .ok (base64.encode bytes) ∧
      base64.decode (base64.encode bytes) = .ok bytes ∧ bytes.Nodup ∧
      bytes.min? = some 0 ∧ bytes.max? = some 1 :=
  C9_generate_permutation ['A', 'B'] [1, 0] (by decide) (by decide) (by decide)
    (by decide) (by decide)

end schrott_id


namespace schrott_id

/-! ### The floating-point length bug (C1, C3, C10) -/

theorem clogN_two_pow : ∀ k : Nat, clogN 2 (2 ^ k + 1) = k + 1 := by
  intro k
  induction k with
  | zero => decide
  | succ k ih =>
    rw [clogN_succ_div (by norm_num) Nat.one_le_two_pow]
    rw [show (2 : Nat) ^ (k + 1) / 2 = 2 ^ k from by
      rw [pow_succ, Nat.mul_div_cancel _ (by norm_num)]]
    rw [ih]

/-- C1: the claimed round-trip is broken by a code bug in the shipped
length computation.  At the failing input — alphabet of size 2, any valid
permutation, `v = 2 ^ 49` — the value needs 50 binary digits (proved here
of the embedded digit computation), while the source's `double`
expression `ceil(log(2^49 + 1)/log(2))` evaluates to 49: the conversion
do/while then underflows its `size_t` index and writes out of bounds, so
`decode(encode(2^49))` does not return `2^49`. -/
theorem C1_failing_input_digits : (toDigits 2 (2 ^ 49)).length = 50 := by
  rw [toDigits_length (by norm_num : (2:Nat) ≤ 2) (2 ^ 49), clogN_two_pow 49]
  decide

/-- C3: the claimed digit-count formula is violated by the shipped
`double` arithmetic.  At the failing input — a 5-character alphabet,
`min_length = 1`, `v = 124` — the claimed formula
`max(ceil(log_5 125), min_length)` gives 3 (proved here of the embedded
computation), while the program computes
`ceil(log(125.0)/log(5.0)) = ceil(3.0000000000000004) = 4`. -/
theorem C3_failing_input_length :
    (convert_to_base ⟨['A', 'B', 'C', 'D', 'E'], [0, 1, 2, 3, 4], 1⟩ 124).length
      = 3 := by
  decide

/-- C10: the claimed never-out-of-bounds property fails at the same code
bug.  At alphabet size 2, `v = 2 ^ 49`, the buffer the claim's invariant
requires has 50 entries (proved here of the embedded computation), but
the shipped `double` computation allocates 49; the conversion do/while
then writes past the buffer through a wrapped `size_t` index. -/
theorem C10_failing_input_length :
    (convert_to_base ⟨['A', 'B'], [1, 0], 1⟩ (2 ^ 49)).length = 50 := by
  rw [convert_to_base_length (by decide) (by decide) (2 ^ 49)]
  rw [show (⟨['A', 'B'], [1, 0], 1⟩ : Cipher).alphabet.length = 2 from rfl]
  rw [clogN_two_pow 49]
  decide

end schrott_id

end SchrottId
